import Mathlib

/-!
Shallow embedding of the transposition table of `src/src/tt.cpp`
(Stockfish, 2008 vintage): storage layout, store/retrieve, eviction
scoring, generation bookkeeping, sizing, principal-variation
reinsertion and the occupancy estimate, together with proofs of the
spec's testable properties.

The header `tt.h` (the `TTEntry` record, the sentinels and the widths
of the counters) is not among the sources; those parts are modelled
from the spec and are marked as such.
-/

/-- Bound type of a stored value (the `ValueType` enum of the source):
`vtNone`/`vtUpper`/`vtLower`/`vtExact`/`vtEval` stand for
VALUE_TYPE_NONE / UPPER / LOWER / EXACT / EVAL (the spec's
None / UpperBound / LowerBound / Exact / StaticEval). -/
inductive ValueType where
  | vtNone
  | vtUpper
  | vtLower
  | vtExact
  | vtEval
deriving DecidableEq

/-- MOVE_NONE: the spec's NoMove sentinel; moves are opaque tokens
(modelled as Nat) with 0 meaning "none recorded". -/
def MOVE_NONE : Nat := 0

/-- Modelled from the spec: VALUE_NONE, the NoValue sentinel of the
missing value header; its exact numeral is irrelevant to the claims. -/
def VALUE_NONE : Int := 32767

/-- Modelled from the spec: OnePly, the fixed per-ply depth unit of the
missing depth header; `insert_pv` stores depth `-127 * OnePly`
("-127 plies", the spec's very-low sentinel). -/
def OnePly : Int := 2

/-- Modelled from the spec: one table entry record (the `TTEntry` class
lives in the header `tt.h`, which is not among the sources). Spec section 3:
`signature` (0 = empty slot), `value`, `boundType`, `depth`, `move`
(MOVE_NONE = none recorded), `generation` copied from the table at write
time. The constructor `TTEntry(posKey, v, t, d, m, generation)` used by
`store` is the plain record constructor. -/
structure TTEntry where
  key : Nat
  value : Int
  valueType : ValueType
  depth : Int
  move : Nat
  generation : Nat
deriving DecidableEq

/-- The all-zero entry: what `clear`'s memset leaves in every slot. -/
def TTEntry.empty : TTEntry := ⟨0, 0, ValueType.vtNone, 0, 0, 0⟩

/-- The table state: `size` = cluster count, `entries` = the entry array
(modelled as a total function from index to entry; the C array holds
`size * 4` entries and every access of tt.cpp stays inside one cluster
`[first_entry k, first_entry k + 4)`), `generation` and `writes`
counters. -/
structure TranspositionTable where
  size : Nat
  entries : Nat → TTEntry
  generation : Nat
  writes : Nat

/-- Point update of the entry array. -/
def writeAt (f : Nat → TTEntry) (i : Nat) (e : TTEntry) : Nat → TTEntry :=
  fun j => if j = i then e else f j

namespace TranspositionTable

/-- `first_entry`: index of the first entry of the cluster of `posKey`,
`entries + (int(posKey & (size - 1)) << 2)` in the source. -/
def first_entry (tt : TranspositionTable) (posKey : Nat) : Nat :=
  (posKey &&& (tt.size - 1)) * 4

/-- Outcome of the scan loop of `store`: the VALUE_TYPE_EVAL early
return, a write into an empty-or-matching slot (the move possibly
carried from the slot; no eviction counted), or an eviction write. -/
inductive StoreDecision where
  | abort
  | hit (idx : Nat) (m : Nat)
  | evict (idx : Nat)
deriving DecidableEq

/-- The loop of `store` over the remaining slot offsets (the C loop runs
`i = 0..3` with `replace` the offset of the tentative victim):
an empty or same-key slot is taken immediately (aborting when occupied
and the incoming type is VALUE_TYPE_EVAL, carrying the slot's move when
the incoming move is MOVE_NONE); otherwise slots past the first
challenge the victim with the c1+c2+c3 score. -/
def storeScanGo (tt : TranspositionTable) (posKey : Nat) (t : ValueType) (m : Nat) :
    List Nat → Nat → StoreDecision
  | [], replace => StoreDecision.evict (tt.first_entry posKey + replace)
  | i :: rest, replace =>
    let tte := tt.entries (tt.first_entry posKey + i)
    if tte.key = 0 ∨ tte.key = posKey then   -- empty or overwrite old
      if tte.key ≠ 0 ∧ t = ValueType.vtEval then StoreDecision.abort
      else StoreDecision.hit (tt.first_entry posKey + i)
        (if m = MOVE_NONE then tte.move else m)
    else if i = 0 then storeScanGo tt posKey t m rest replace
    else
      let rep := tt.entries (tt.first_entry posKey + replace)
      let c1 : Int := if rep.generation = tt.generation then 2 else 0
      let c2 : Int := if tte.generation = tt.generation then -2 else 0
      let c3 : Int := if tte.depth < rep.depth then 1 else 0
      storeScanGo tt posKey t m rest (if c1 + c2 + c3 > 0 then i else replace)

/-- The full scan of `store`, starting with `tte = replace = first_entry`. -/
def storeScan (tt : TranspositionTable) (posKey : Nat) (t : ValueType) (m : Nat) :
    StoreDecision :=
  storeScanGo tt posKey t m [0, 1, 2, 3] 0

/-- `TranspositionTable::store`. -/
def store (tt : TranspositionTable) (posKey : Nat) (v : Int) (t : ValueType)
    (d : Int) (m : Nat) : TranspositionTable :=
  match storeScan tt posKey t m with
  | StoreDecision.abort => tt
  | StoreDecision.hit idx mv =>
    { tt with entries := writeAt tt.entries idx ⟨posKey, v, t, d, mv, tt.generation⟩ }
  | StoreDecision.evict idx =>
    { tt with entries := writeAt tt.entries idx ⟨posKey, v, t, d, m, tt.generation⟩,
              writes := tt.writes + 1 }

/-- The loop of `retrieve` over the remaining slot offsets. -/
def retrieveScanGo (tt : TranspositionTable) (posKey : Nat) : List Nat → Option TTEntry
  | [] => Option.none
  | i :: rest =>
    if (tt.entries (tt.first_entry posKey + i)).key = posKey then
      Option.some (tt.entries (tt.first_entry posKey + i))
    else retrieveScanGo tt posKey rest

/-- `TranspositionTable::retrieve`: first slot of the cluster whose key
equals `posKey`, or NULL (`Option.none`). -/
def retrieve (tt : TranspositionTable) (posKey : Nat) : Option TTEntry :=
  retrieveScanGo tt posKey [0, 1, 2, 3]

/-- `TranspositionTable::clear`: memset of the whole entry array. -/
def clear (tt : TranspositionTable) : TranspositionTable :=
  { tt with entries := fun _ => TTEntry.empty }

/-- Modelled from the spec: `sizeof(TTEntry)` (the record layout lives in
the missing header `tt.h`); the sizing claims are parametric in this
constant, taken as 16 bytes (8-byte signature plus packed data). -/
def sizeofTTEntry : Nat := 16

/-- The doubling loop of `set_size`: `while ((2*newSize)*4*sizeof(TTEntry)
<= (mbSize << 20)) newSize *= 2;`. The structural fuel only bounds the
iteration count; starting from 1024 the loop doubles each round, so any
fuel ≥ log2(budget) reproduces the C loop exactly (the caller passes 64,
enough for every budget below 2^81 bytes, far beyond the supported
4..4096 MB range). -/
def growSizeGo (budget : Nat) : Nat → Nat → Nat
  | 0, n => n
  | fuel + 1, n =>
    if (2 * n) * 4 * sizeofTTEntry ≤ budget then growSizeGo budget fuel (2 * n) else n

/-- The computed cluster count of `set_size`, starting from 1024. -/
def growSize (budget : Nat) (n : Nat) : Nat :=
  growSizeGo budget 64 n

/-- `TranspositionTable::set_size` (precondition of the source assert:
4 ≤ mbSize ≤ 4096): computes the new cluster count from the byte budget
`mbSize << 20`. `mbSize` is a 32-bit `unsigned` in the source, so the
shift wraps modulo 2^32 — at mbSize = 4096 the budget wraps to 0 and
the doubling loop stays at the 1024-cluster floor. When the computed
count differs from the current one, reallocates (fresh zero-filled
array, i.e. `clear`) keeping generation and writes; otherwise a no-op.
Allocation failure (process exit) is not modelled. -/
def set_size (tt : TranspositionTable) (mbSize : Nat) : TranspositionTable :=
  let newSize := growSize ((mbSize <<< 20) % 2 ^ 32) 1024
  if newSize ≠ tt.size then
    { size := newSize, entries := fun _ => TTEntry.empty,
      generation := tt.generation, writes := tt.writes }
  else tt

/-- `TranspositionTable::new_search`: `generation++; writes = 0;`.
Modelled from the spec: the generation counter is 8-bit scale and wraps
by truncation (spec section 3), hence the mod 256. -/
def new_search (tt : TranspositionTable) : TranspositionTable :=
  { tt with generation := (tt.generation + 1) % 256, writes := 0 }

/-- `TranspositionTable::insert_pv`. Modelled from the spec: the replay
of the starting position (`p.get_key()` / `p.do_move` come from the
missing position code, the spec's external state-transition
collaborator) is abstracted as the list of (signature, move) pairs
visited along the PV, the list ending where `pv[i]` hits MOVE_NONE.
Each pair issues the fixed placeholder store of tt.cpp. -/
def insert_pv (tt : TranspositionTable) (pv : List (Nat × Nat)) : TranspositionTable :=
  pv.foldl (fun t km => t.store km.1 VALUE_NONE ValueType.vtNone (-127 * OnePly) km.2) tt

/-- Truncation toward zero: the `int(...)` cast of `full`. -/
noncomputable def cTrunc (x : ℝ) : ℤ :=
  if 0 ≤ x then ⌊x⌋ else -⌊-x⌋

/-- `TranspositionTable::full`: `int(1000 * (1 - exp(writes * log(1.0 -
1.0/N))))` with `N = size * 4.0`; the C doubles are modelled as real
numbers. -/
noncomputable def full (tt : TranspositionTable) : ℤ :=
  cTrunc (1000 * (1 - Real.exp ((tt.writes : ℝ) *
    Real.log (1 - 1 / ((tt.size : ℝ) * 4)))))

end TranspositionTable

/-- The entry at offset `i` (0..3) of the cluster of signature `k`. -/
def slotE (tt : TranspositionTable) (k i : Nat) : TTEntry :=
  tt.entries (tt.first_entry k + i)

/-- Within the cluster of `k`, empty slots appear only after every
occupied slot (the contiguous-prefix shape that `clear` establishes and
non-zero-signature stores preserve). -/
def clusterNoHoles (tt : TranspositionTable) (k : Nat) : Prop :=
  ∀ j : Nat, j < 4 → ∀ i : Nat, i < j →
    (slotE tt k i).key = 0 → (slotE tt k j).key = 0

/-- At most one slot of the cluster of `k` carries signature `k`. -/
def clusterUnique (tt : TranspositionTable) (k : Nat) : Prop :=
  ∀ i : Nat, i < 4 → ∀ j : Nat, j < 4 → i ≠ j →
    (slotE tt k i).key = k → (slotE tt k j).key ≠ k

instance (tt : TranspositionTable) (k : Nat) : Decidable (clusterNoHoles tt k) := by
  unfold clusterNoHoles; infer_instance

instance (tt : TranspositionTable) (k : Nat) : Decidable (clusterUnique tt k) := by
  unfold clusterUnique; infer_instance

/-- States reachable by the public operations after a `clear` (store and
`insert_pv` with non-zero signatures, per the spec's input constraint). -/
inductive Reachable : TranspositionTable → Prop where
  | cleared : ∀ tt : TranspositionTable, Reachable tt.clear
  | stepStore : ∀ tt k v t d m, Reachable tt → k ≠ 0 → Reachable (tt.store k v t d m)
  | stepNewSearch : ∀ tt, Reachable tt → Reachable tt.new_search
  | stepInsertPv : ∀ tt pv, Reachable tt → (∀ p ∈ pv, Prod.fst p ≠ 0) →
      Reachable (tt.insert_pv pv)

open TranspositionTable

/-- 1 when the entry carries the table's current generation, else 0. -/
def genFlag (tt : TranspositionTable) (e : TTEntry) : Nat :=
  if e.generation = tt.generation then 1 else 0

/-- Lexicographic "at most as valuable": staler, or equally stale and
at most as deep. -/
def scoreLe (tt : TranspositionTable) (a b : TTEntry) : Prop :=
  genFlag tt a < genFlag tt b ∨ (genFlag tt a = genFlag tt b ∧ a.depth ≤ b.depth)

/-- Lexicographic "strictly less valuable". -/
def scoreLt (tt : TranspositionTable) (a b : TTEntry) : Prop :=
  genFlag tt a < genFlag tt b ∨ (genFlag tt a = genFlag tt b ∧ a.depth < b.depth)

/-! ## Concrete tables for the scenario witnesses -/

/-- A 4-cluster (16-slot) empty table. -/
def ttBase : TranspositionTable := ⟨4, fun _ => TTEntry.empty, 0, 0⟩

/-- `ttBase` after `store(6, 100, Exact, 3, 11)` (signature 6, cluster 2). -/
def ttWithA : TranspositionTable := store ttBase 6 100 ValueType.vtExact 3 11

/-- The C1 scenario cluster: signature 4 with depth 5 at the current
generation 1 in slot 0, and three previous-generation (0) depth-1
signatures 8, 12, 16 in slots 1-3; all five keys 4,8,12,16,20 map to
cluster 0 of a 4-cluster table. -/
def c1tt : TranspositionTable :=
  ⟨4,
   writeAt (writeAt (writeAt (writeAt (fun _ => TTEntry.empty)
     0 ⟨4, 10, ValueType.vtExact, 5, 7, 1⟩)
     1 ⟨8, 0, ValueType.vtExact, 1, 0, 0⟩)
     2 ⟨12, 0, ValueType.vtExact, 1, 0, 0⟩)
     3 ⟨16, 0, ValueType.vtExact, 1, 0, 0⟩,
   1, 0⟩

/-! ## Single-step unfolding equations for the scan loops -/

lemma storeScanGo_nil (tt : TranspositionTable) (k : Nat) (t : ValueType) (m r : Nat) :
    storeScanGo tt k t m [] r = StoreDecision.evict (tt.first_entry k + r) := rfl

lemma storeScanGo_cons (tt : TranspositionTable) (k : Nat) (t : ValueType) (m : Nat)
    (i : Nat) (rest : List Nat) (r : Nat) :
    storeScanGo tt k t m (i :: rest) r =
      if (slotE tt k i).key = 0 ∨ (slotE tt k i).key = k then
        if (slotE tt k i).key ≠ 0 ∧ t = ValueType.vtEval then
          StoreDecision.abort
        else
          StoreDecision.hit (tt.first_entry k + i)
            (if m = MOVE_NONE then (slotE tt k i).move else m)
      else if i = 0 then storeScanGo tt k t m rest r
      else
        storeScanGo tt k t m rest
          (if ((if (slotE tt k r).generation = tt.generation then (2 : Int) else 0) +
               (if (slotE tt k i).generation = tt.generation then (-2 : Int) else 0) +
               (if (slotE tt k i).depth < (slotE tt k r).depth then (1 : Int) else 0) > 0)
           then i else r) := rfl

lemma retrieveScanGo_nil (tt : TranspositionTable) (k : Nat) :
    retrieveScanGo tt k [] = Option.none := rfl

lemma retrieveScanGo_cons (tt : TranspositionTable) (k i : Nat) (rest : List Nat) :
    retrieveScanGo tt k (i :: rest) =
      if (slotE tt k i).key = k then Option.some (slotE tt k i)
      else retrieveScanGo tt k rest := rfl

/-! ## Eviction-scoring analysis

The c1+c2+c3 comparison of the store loop is the strict part of the
lexicographic order on (is-current-generation, depth): a challenger
replaces the tentative victim exactly when it is staler, or equally
stale and strictly shallower. -/

lemma scoreLe_refl (tt : TranspositionTable) (a : TTEntry) : scoreLe tt a a := by
  unfold scoreLe; omega

lemma scoreLe_of_not_lt {tt : TranspositionTable} {a b : TTEntry}
    (h : ¬ scoreLt tt a b) : scoreLe tt b a := by
  unfold scoreLt at h; unfold scoreLe; omega

lemma scoreLt_le_trans {tt : TranspositionTable} {a b c : TTEntry}
    (h1 : scoreLt tt a b) (h2 : scoreLe tt b c) : scoreLe tt a c := by
  unfold scoreLt at h1; unfold scoreLe at h2 ⊢; omega

/-- The c1+c2+c3 > 0 test of the store loop is exactly `scoreLt tte rep`. -/
lemma cmp_pos_iff (tt : TranspositionTable) (rep tte : TTEntry) :
    ((if rep.generation = tt.generation then (2 : Int) else 0) +
     (if tte.generation = tt.generation then (-2 : Int) else 0) +
     (if tte.depth < rep.depth then (1 : Int) else 0) > 0) ↔ scoreLt tt tte rep := by
  unfold scoreLt genFlag
  split_ifs <;> (constructor <;> intro h <;> simp_all <;> omega)

/-- Scan invariant for the eviction path: on a cluster whose slots are
all occupied by foreign signatures, the loop returns the slot minimising
(is-current-generation, depth) over the whole cluster, provided the
accumulator is minimal over the slots already scanned. -/
lemma storeScanGo_evict (tt : TranspositionTable) (k : Nat) (t : ValueType) (m : Nat)
    (hfull : ∀ j, j < 4 → (slotE tt k j).key ≠ 0 ∧ (slotE tt k j).key ≠ k) :
    ∀ n i r, i + n = 4 → 1 ≤ i → r < i →
    (∀ j, j < i → scoreLe tt (slotE tt k r) (slotE tt k j)) →
    ∃ r2, r2 < 4 ∧
      storeScanGo tt k t m (List.range' i n) r =
        StoreDecision.evict (tt.first_entry k + r2) ∧
      ∀ j, j < 4 → scoreLe tt (slotE tt k r2) (slotE tt k j) := by
  intro n
  induction n with
  | zero =>
    intro i r h h1 hr hmin
    have hi : i = 4 := by omega
    subst hi
    exact ⟨r, by omega, by rw [show List.range' 4 0 = [] from rfl, storeScanGo_nil],
      fun j hj => hmin j hj⟩
  | succ n ih =>
    intro i r h h1 hr hmin
    have hi4 : i < 4 := by omega
    obtain ⟨hk0, hkk⟩ := hfull i hi4
    rw [List.range'_succ, storeScanGo_cons]
    rw [if_neg (not_or.mpr ⟨hk0, hkk⟩)]
    rw [if_neg (by omega : ¬ i = 0)]
    by_cases hlt : scoreLt tt (slotE tt k i) (slotE tt k r)
    · rw [if_pos ((cmp_pos_iff tt (slotE tt k r) (slotE tt k i)).mpr hlt)]
      exact ih (i + 1) i (by omega) (by omega) (by omega)
        (fun j hj => by
          rcases Nat.lt_or_ge j i with hji | hji
          · exact scoreLt_le_trans hlt (hmin j hji)
          · have hjeq : j = i := by omega
            subst hjeq; exact scoreLe_refl tt _)
    · rw [if_neg (fun hc =>
        hlt ((cmp_pos_iff tt (slotE tt k r) (slotE tt k i)).mp hc))]
      exact ih (i + 1) r (by omega) (by omega) (by omega)
        (fun j hj => by
          rcases Nat.lt_or_ge j i with hji | hji
          · exact hmin j hji
          · have hjeq : j = i := by omega
            subst hjeq; exact scoreLe_of_not_lt hlt)

/-- On a full cluster of foreign signatures, `store`'s scan evicts the
slot minimising (is-current-generation, depth). -/
lemma storeScan_evict (tt : TranspositionTable) (k : Nat) (t : ValueType) (m : Nat)
    (hfull : ∀ j, j < 4 → (slotE tt k j).key ≠ 0 ∧ (slotE tt k j).key ≠ k) :
    ∃ r2, r2 < 4 ∧
      storeScan tt k t m = StoreDecision.evict (tt.first_entry k + r2) ∧
      ∀ j, j < 4 → scoreLe tt (slotE tt k r2) (slotE tt k j) := by
  obtain ⟨hk0, hkk⟩ := hfull 0 (by omega)
  have h0 : storeScan tt k t m = storeScanGo tt k t m (List.range' 1 3) 0 := by
    show storeScanGo tt k t m (0 :: [1, 2, 3]) 0 = _
    rw [storeScanGo_cons]
    rw [if_neg (not_or.mpr ⟨hk0, hkk⟩)]
    rw [if_pos rfl]
    rfl
  rw [h0]
  exact storeScanGo_evict tt k t m hfull 3 1 0 (by omega) (by omega) (by omega)
    (fun j hj => by
      have hj0 : j = 0 := by omega
      subst hj0; exact scoreLe_refl tt _)

/-! ## Hit-path analysis: the first empty-or-matching slot decides -/

/-- Walking over occupied foreign slots leaves the scan's outcome a scan
from a later start (with some accumulator). -/
lemma storeScanGo_reach (tt : TranspositionTable) (k : Nat) (t : ValueType) (m : Nat)
    (i0 : Nat) (hi0 : i0 < 4)
    (hocc : ∀ j, j < i0 → (slotE tt k j).key ≠ 0 ∧ (slotE tt k j).key ≠ k) :
    ∀ n i r, i + n = 4 → i ≤ i0 →
    ∃ r2, storeScanGo tt k t m (List.range' i n) r =
      storeScanGo tt k t m (List.range' i0 (4 - i0)) r2 := by
  intro n
  induction n with
  | zero =>
    intro i r h hle
    omega
  | succ n ih =>
    intro i r h hle
    rcases Nat.eq_or_lt_of_le hle with heq | hlt
    · subst heq
      exact ⟨r, by rw [show 4 - i = n + 1 from by omega]⟩
    · obtain ⟨hk0, hkk⟩ := hocc i hlt
      rw [List.range'_succ, storeScanGo_cons]
      rw [if_neg (not_or.mpr ⟨hk0, hkk⟩)]
      by_cases hi : i = 0
      · rw [if_pos hi]
        exact ih (i + 1) r (by omega) (by omega)
      · rw [if_neg hi]
        exact ih (i + 1) _ (by omega) (by omega)

/-- When slot `i0` is the first empty-or-matching slot of the cluster,
the scan aborts there (occupied slot, VALUE_TYPE_EVAL) or hits there,
carrying the slot's move when the incoming move is MOVE_NONE. -/
lemma storeScan_hit (tt : TranspositionTable) (k : Nat) (t : ValueType) (m : Nat)
    (i0 : Nat) (hi0 : i0 < 4)
    (hocc : ∀ j, j < i0 → (slotE tt k j).key ≠ 0 ∧ (slotE tt k j).key ≠ k)
    (hem : (slotE tt k i0).key = 0 ∨ (slotE tt k i0).key = k) :
    storeScan tt k t m =
      if (slotE tt k i0).key ≠ 0 ∧ t = ValueType.vtEval then StoreDecision.abort
      else StoreDecision.hit (tt.first_entry k + i0)
        (if m = MOVE_NONE then (slotE tt k i0).move else m) := by
  obtain ⟨r2, h2⟩ := storeScanGo_reach tt k t m i0 hi0 hocc 4 0 0 (by omega) (by omega)
  have h1 : storeScan tt k t m = storeScanGo tt k t m (List.range' 0 4) 0 := rfl
  rw [h1, h2]
  rw [show 4 - i0 = (3 - i0) + 1 from by omega, List.range'_succ, storeScanGo_cons]
  rw [if_pos hem]

/-! ## Retrieve scan lemmas -/

/-- `retrieve` returns the slot at `i0` when it matches and no earlier
slot does. -/
lemma retrieve_first (tt : TranspositionTable) (k : Nat) (i0 : Nat) (hi0 : i0 < 4)
    (hbefore : ∀ j, j < i0 → (slotE tt k j).key ≠ k)
    (hmatch : (slotE tt k i0).key = k) :
    retrieve tt k = Option.some (slotE tt k i0) := by
  have step : ∀ n i, i + n = 4 → i ≤ i0 →
      retrieveScanGo tt k (List.range' i n) = Option.some (slotE tt k i0) := by
    intro n
    induction n with
    | zero => intro i h hle; omega
    | succ n ih =>
      intro i h hle
      rw [List.range'_succ, retrieveScanGo_cons]
      rcases Nat.eq_or_lt_of_le hle with heq | hlt
      · subst heq
        rw [if_pos hmatch]
      · rw [if_neg (hbefore i hlt)]
        exact ih (i + 1) (by omega) (by omega)
  exact step 4 0 (by omega) (by omega)

/-- `retrieve` misses when no slot of the cluster matches. -/
lemma retrieve_none (tt : TranspositionTable) (k : Nat)
    (h : ∀ j, j < 4 → (slotE tt k j).key ≠ k) :
    retrieve tt k = Option.none := by
  show retrieveScanGo tt k [0, 1, 2, 3] = Option.none
  rw [retrieveScanGo_cons, if_neg (h 0 (by omega)),
      retrieveScanGo_cons, if_neg (h 1 (by omega)),
      retrieveScanGo_cons, if_neg (h 2 (by omega)),
      retrieveScanGo_cons, if_neg (h 3 (by omega)), retrieveScanGo_nil]

/-! ## Store unfolding by scan outcome -/

lemma store_of_abort {tt : TranspositionTable} {k : Nat} {t : ValueType} {m : Nat}
    (v : Int) (d : Int) (h : storeScan tt k t m = StoreDecision.abort) :
    store tt k v t d m = tt := by
  unfold store; rw [h]

lemma store_of_hit {tt : TranspositionTable} {k : Nat} {t : ValueType} {m : Nat}
    {idx mv : Nat} (v : Int) (d : Int)
    (h : storeScan tt k t m = StoreDecision.hit idx mv) :
    store tt k v t d m =
      { tt with entries := writeAt tt.entries idx ⟨k, v, t, d, mv, tt.generation⟩ } := by
  unfold store; rw [h]

lemma store_of_evict {tt : TranspositionTable} {k : Nat} {t : ValueType} {m : Nat}
    {idx : Nat} (v : Int) (d : Int)
    (h : storeScan tt k t m = StoreDecision.evict idx) :
    store tt k v t d m =
      { tt with entries := writeAt tt.entries idx ⟨k, v, t, d, m, tt.generation⟩,
                writes := tt.writes + 1 } := by
  unfold store; rw [h]

/-- Point write then read inside one cluster. -/
lemma writeAt_add (f : Nat → TTEntry) (b i0 j : Nat) (e : TTEntry) :
    writeAt f (b + i0) e (b + j) = if j = i0 then e else f (b + j) := by
  unfold writeAt
  split_ifs with h1 h2 h2 <;> first | rfl | omega

/-- A write into a different cluster does not change this cluster (4-slot
clusters start at multiples of 4, so distinct clusters are disjoint). -/
lemma writeAt_other_cluster (f : Nat → TTEntry) (c c2 i0 j : Nat) (e : TTEntry)
    (hb : c * 4 ≠ c2 * 4) (hi0 : i0 < 4) (hj : j < 4) :
    writeAt f (c2 * 4 + i0) e (c * 4 + j) = f (c * 4 + j) := by
  unfold writeAt
  rw [if_neg (by omega)]

/-- C1: on a full cluster of four foreign signatures, `store` evicts a
slot that is previous-generation whenever such a slot exists (a
current-generation entry is never the victim while a staler one is
available), and the victim's depth is minimal among the slots of its
staleness class (depth is the tie-break). -/
theorem c1_eviction_prefers_stale (tt : TranspositionTable) (k : Nat) (v : Int)
    (t : ValueType) (d : Int) (m : Nat)
    (hfull : ∀ j, j < 4 → (slotE tt k j).key ≠ 0 ∧ (slotE tt k j).key ≠ k) :
    ∃ r, r < 4 ∧
      (store tt k v t d m).entries =
        writeAt tt.entries (tt.first_entry k + r) ⟨k, v, t, d, m, tt.generation⟩ ∧
      (store tt k v t d m).writes = tt.writes + 1 ∧
      ((∃ j, j < 4 ∧ (slotE tt k j).generation ≠ tt.generation) →
        (slotE tt k r).generation ≠ tt.generation) ∧
      (∀ j, j < 4 →
        ((slotE tt k j).generation = tt.generation ↔
         (slotE tt k r).generation = tt.generation) →
        (slotE tt k r).depth ≤ (slotE tt k j).depth) := by
  obtain ⟨r2, hr2, hscan, hmin⟩ := storeScan_evict tt k t m hfull
  refine ⟨r2, hr2, by rw [store_of_evict v d hscan], by rw [store_of_evict v d hscan], ?_, ?_⟩
  · rintro ⟨j, hj, hgen⟩ hc
    have h := hmin j hj
    unfold scoreLe genFlag at h
    rw [if_pos hc, if_neg hgen] at h
    omega
  · intro j hj hiff
    have h := hmin j hj
    unfold scoreLe genFlag at h
    by_cases hg : (slotE tt k r2).generation = tt.generation
    · rw [if_pos hg, if_pos (hiff.mpr hg)] at h
      omega
    · rw [if_neg hg, if_neg (fun hh => hg (hiff.mp hh))] at h
      omega

theorem c1_eviction_prefers_stale_witness :
    (∀ j, j < 4 → (slotE c1tt 20 j).key ≠ 0 ∧ (slotE c1tt 20 j).key ≠ 20) ∧
    (∃ r, r < 4 ∧
      (store c1tt 20 9 ValueType.vtExact 7 3).entries =
        writeAt c1tt.entries (c1tt.first_entry 20 + r)
          ⟨20, 9, ValueType.vtExact, 7, 3, c1tt.generation⟩ ∧
      (store c1tt 20 9 ValueType.vtExact 7 3).writes = c1tt.writes + 1 ∧
      ((∃ j, j < 4 ∧ (slotE c1tt 20 j).generation ≠ c1tt.generation) →
        (slotE c1tt 20 r).generation ≠ c1tt.generation) ∧
      (∀ j, j < 4 →
        ((slotE c1tt 20 j).generation = c1tt.generation ↔
         (slotE c1tt 20 r).generation = c1tt.generation) →
        (slotE c1tt 20 r).depth ≤ (slotE c1tt 20 j).depth)) ∧
    retrieve (store c1tt 20 9 ValueType.vtExact 7 3) 4 =
      Option.some ⟨4, 10, ValueType.vtExact, 5, 7, 1⟩ ∧
    retrieve (store c1tt 20 9 ValueType.vtExact 7 3) 8 = Option.none :=
  ⟨by decide, c1_eviction_prefers_stale c1tt 20 9 ValueType.vtExact 7 3 (by decide),
   by decide, by decide⟩

/-- C2: a VALUE_TYPE_EVAL (StaticEval) store on a signature already in
its cluster aborts, leaving the whole table (hence any later retrieve)
unchanged. The no-holes hypothesis is the cluster shape every reachable
table has (see the C10 theorem). -/
theorem c2_eval_store_is_noop (tt : TranspositionTable) (k : Nat) (v : Int)
    (d : Int) (m : Nat) (hk : k ≠ 0) (hnh : clusterNoHoles tt k)
    (hin : ∃ i, i < 4 ∧ (slotE tt k i).key = k) :
    store tt k v ValueType.vtEval d m = tt ∧
    retrieve (store tt k v ValueType.vtEval d m) k = retrieve tt k := by
  obtain ⟨i, hi, hkey⟩ := hin
  have hP : ∃ j, (slotE tt k j).key = 0 ∨ (slotE tt k j).key = k :=
    ⟨i, Or.inr hkey⟩
  have hi0P := Nat.find_spec hP
  have hi0le : Nat.find hP ≤ i := Nat.find_min' hP (Or.inr hkey)
  have hi04 : Nat.find hP < 4 := by omega
  have hocc : ∀ j, j < Nat.find hP →
      (slotE tt k j).key ≠ 0 ∧ (slotE tt k j).key ≠ k := by
    intro j hj
    have := Nat.find_min hP hj
    push_neg at this
    exact this
  have hne0 : (slotE tt k (Nat.find hP)).key ≠ 0 := by
    intro h0
    rcases Nat.eq_or_lt_of_le hi0le with heq | hlt
    · rw [heq] at h0; rw [h0] at hkey; exact hk hkey.symm
    · have := hnh i hi (Nat.find hP) hlt h0
      rw [this] at hkey; exact hk hkey.symm
  have hscan := storeScan_hit tt k ValueType.vtEval m (Nat.find hP) hi04 hocc hi0P
  rw [if_pos ⟨hne0, rfl⟩] at hscan
  have hstore := store_of_abort v d hscan
  exact ⟨hstore, by rw [hstore]⟩

theorem c2_eval_store_is_noop_witness :
    ((6 : Nat) ≠ 0 ∧ clusterNoHoles ttWithA 6 ∧ (slotE ttWithA 6 0).key = 6) ∧
    store ttWithA 6 200 ValueType.vtEval 9 12 = ttWithA ∧
    retrieve (store ttWithA 6 200 ValueType.vtEval 9 12) 6 = retrieve ttWithA 6 ∧
    retrieve ttWithA 6 = Option.some ⟨6, 100, ValueType.vtExact, 3, 11, 0⟩ :=
  ⟨⟨by decide, by decide, by decide⟩,
   (c2_eval_store_is_noop ttWithA 6 200 9 12 (by decide) (by decide)
     ⟨0, by omega, by decide⟩).1,
   (c2_eval_store_is_noop ttWithA 6 200 9 12 (by decide) (by decide)
     ⟨0, by omega, by decide⟩).2,
   by decide⟩

/-- Retrieve right after writing entry `e` (carrying key `k`) at offset
`i` of the cluster of `k`, when no earlier slot of the old table
matches `k`. -/
lemma retrieve_after_write {tt tt2 : TranspositionTable} (k i : Nat) (e : TTEntry)
    (hi : i < 4) (hsz : tt2.size = tt.size)
    (hent : tt2.entries = writeAt tt.entries (tt.first_entry k + i) e)
    (hbefore : ∀ j, j < i → (slotE tt k j).key ≠ k) (hek : e.key = k) :
    retrieve tt2 k = Option.some e := by
  have hbase : tt2.first_entry k = tt.first_entry k := by
    unfold TranspositionTable.first_entry
    rw [hsz]
  have hslot : ∀ j, slotE tt2 k j = if j = i then e else slotE tt k j := by
    intro j
    show tt2.entries (tt2.first_entry k + j) = _
    rw [hent, hbase]
    exact writeAt_add tt.entries (tt.first_entry k) i j e
  have h := retrieve_first tt2 k i hi
    (fun j hj => by
      rw [hslot j, if_neg (by omega)]
      exact hbefore j hj)
    (by rw [hslot i, if_pos rfl, hek])
  rw [h, hslot i, if_pos rfl]

/-- C4: a non-StaticEval store with MOVE_NONE on a signature already in
its cluster overwrites that slot with the new value, bound type, depth
and the table's current generation, carrying the slot's previously
recorded move forward (writes, size and generation counters untouched);
an immediate retrieve returns exactly that. The cluster-shape
hypotheses hold in every reachable table (C6/C10). -/
theorem c4_nomove_store_preserves_move (tt : TranspositionTable) (k : Nat)
    (v : Int) (t : ValueType) (d : Int) (i : Nat)
    (hk : k ≠ 0) (ht : t ≠ ValueType.vtEval)
    (hnh : clusterNoHoles tt k) (hu : clusterUnique tt k)
    (hi : i < 4) (hkey : (slotE tt k i).key = k)
    (hmv : (slotE tt k i).move ≠ MOVE_NONE) :
    (store tt k v t d MOVE_NONE).entries =
      writeAt tt.entries (tt.first_entry k + i)
        ⟨k, v, t, d, (slotE tt k i).move, tt.generation⟩ ∧
    (store tt k v t d MOVE_NONE).writes = tt.writes ∧
    retrieve (store tt k v t d MOVE_NONE) k =
      Option.some ⟨k, v, t, d, (slotE tt k i).move, tt.generation⟩ := by
  have hocc : ∀ j, j < i → (slotE tt k j).key ≠ 0 ∧ (slotE tt k j).key ≠ k := by
    intro j hj
    constructor
    · intro h0
      have := hnh i hi j hj h0
      rw [this] at hkey; exact hk hkey.symm
    · exact fun hjk => hu j (by omega) i (by omega) (by omega) hjk hkey
  have hscan := storeScan_hit tt k t MOVE_NONE i hi hocc (Or.inr hkey)
  rw [if_neg (fun hc => ht hc.2), if_pos rfl] at hscan
  have hstore := store_of_hit v d hscan
  refine ⟨by rw [hstore], by rw [hstore], ?_⟩
  exact retrieve_after_write k i _ hi (by rw [hstore]) (by rw [hstore])
    (fun j hj => (hocc j hj).2) rfl

theorem c4_nomove_store_preserves_move_witness :
    (clusterNoHoles ttWithA 6 ∧ clusterUnique ttWithA 6 ∧
     (slotE ttWithA 6 0).key = 6 ∧ (slotE ttWithA 6 0).move ≠ MOVE_NONE) ∧
    (store ttWithA 6 777 ValueType.vtLower 9 MOVE_NONE).entries =
      writeAt ttWithA.entries (ttWithA.first_entry 6 + 0)
        ⟨6, 777, ValueType.vtLower, 9, (slotE ttWithA 6 0).move, ttWithA.generation⟩ ∧
    retrieve (store ttWithA 6 777 ValueType.vtLower 9 MOVE_NONE) 6 =
      Option.some ⟨6, 777, ValueType.vtLower, 9, (slotE ttWithA 6 0).move,
        ttWithA.generation⟩ :=
  ⟨⟨by decide, by decide, by decide, by decide⟩,
   (c4_nomove_store_preserves_move ttWithA 6 777 ValueType.vtLower 9 0
     (by decide) (by decide) (by decide) (by decide) (by omega) (by decide) (by decide)).1,
   (c4_nomove_store_preserves_move ttWithA 6 777 ValueType.vtLower 9 0
     (by decide) (by decide) (by decide) (by decide) (by omega) (by decide) (by decide)).2.2⟩

/-- C3: whenever a store is not the StaticEval abort, an immediately
following retrieve of the same signature finds the values just written:
value, bound type, depth and the current generation, with the move being
the incoming one — or, when the incoming move was MOVE_NONE, the move of
the pre-existing entry for that signature if there was one. The
hypothesis on empty slots (all-zero, as `clear` leaves them and
non-zero-signature stores keep them) holds in every reachable table. -/
theorem c3_store_then_retrieve (tt : TranspositionTable) (k : Nat) (v : Int)
    (t : ValueType) (d : Int) (m : Nat) (hk : k ≠ 0)
    (hclean : ∀ j, j < 4 → (slotE tt k j).key = 0 → (slotE tt k j).move = MOVE_NONE)
    (hnab : storeScan tt k t m ≠ StoreDecision.abort) :
    ∃ e : TTEntry, retrieve (store tt k v t d m) k = Option.some e ∧
      e.key = k ∧ e.value = v ∧ e.valueType = t ∧ e.depth = d ∧
      e.generation = tt.generation ∧
      (e.move = m ∨
        (m = MOVE_NONE ∧
          ∃ old, retrieve tt k = Option.some old ∧ e.move = old.move)) := by
  by_cases hem : ∃ j, j < 4 ∧ ((slotE tt k j).key = 0 ∨ (slotE tt k j).key = k)
  · obtain ⟨i, hi, hPi⟩ := hem
    have hP : ∃ j, (slotE tt k j).key = 0 ∨ (slotE tt k j).key = k := ⟨i, hPi⟩
    have hi0P := Nat.find_spec hP
    have hi0le : Nat.find hP ≤ i := Nat.find_min' hP hPi
    have hi04 : Nat.find hP < 4 := by omega
    have hocc : ∀ j, j < Nat.find hP →
        (slotE tt k j).key ≠ 0 ∧ (slotE tt k j).key ≠ k := by
      intro j hj
      have := Nat.find_min hP hj
      push_neg at this
      exact this
    have hscan := storeScan_hit tt k t m (Nat.find hP) hi04 hocc hi0P
    by_cases hcond : (slotE tt k (Nat.find hP)).key ≠ 0 ∧ t = ValueType.vtEval
    · rw [if_pos hcond] at hscan
      exact absurd hscan hnab
    · rw [if_neg hcond] at hscan
      have hstore := store_of_hit v d hscan
      refine ⟨_, retrieve_after_write k (Nat.find hP) _ hi04
        (by rw [hstore]) (by rw [hstore]) (fun j hj => (hocc j hj).2) rfl,
        rfl, rfl, rfl, rfl, rfl, ?_⟩
      by_cases hm : m = MOVE_NONE
      · rcases hi0P with h0 | hkmatch
        · left
          show (if m = MOVE_NONE then (slotE tt k (Nat.find hP)).move else m) = m
          rw [if_pos hm, hclean (Nat.find hP) hi04 h0, hm]
        · right
          refine ⟨hm, slotE tt k (Nat.find hP),
            retrieve_first tt k (Nat.find hP) hi04 (fun j hj => (hocc j hj).2) hkmatch, ?_⟩
          show (if m = MOVE_NONE then (slotE tt k (Nat.find hP)).move else m) = _
          rw [if_pos hm]
      · left
        show (if m = MOVE_NONE then (slotE tt k (Nat.find hP)).move else m) = m
        rw [if_neg hm]
  · push_neg at hem
    have hfull : ∀ j, j < 4 → (slotE tt k j).key ≠ 0 ∧ (slotE tt k j).key ≠ k := by
      intro j hj
      exact hem j hj
    obtain ⟨r2, hr2, hscan, hmin⟩ := storeScan_evict tt k t m hfull
    have hstore := store_of_evict v d hscan
    exact ⟨_, retrieve_after_write k r2 _ hr2
      (by rw [hstore]) (by rw [hstore]) (fun j hj => (hfull j (by omega)).2) rfl,
      rfl, rfl, rfl, rfl, rfl, Or.inl rfl⟩

theorem c3_store_then_retrieve_witness :
    ((6 : Nat) ≠ 0 ∧
     (∀ j, j < 4 → (slotE ttWithA 6 j).key = 0 → (slotE ttWithA 6 j).move = MOVE_NONE) ∧
     storeScan ttWithA 6 ValueType.vtUpper MOVE_NONE ≠ StoreDecision.abort) ∧
    (∃ e : TTEntry,
      retrieve (store ttWithA 6 50 ValueType.vtUpper 7 MOVE_NONE) 6 = Option.some e ∧
      e.key = 6 ∧ e.value = 50 ∧ e.valueType = ValueType.vtUpper ∧ e.depth = 7 ∧
      e.generation = ttWithA.generation ∧
      (e.move = MOVE_NONE ∨
        (MOVE_NONE = MOVE_NONE ∧
          ∃ old, retrieve ttWithA 6 = Option.some old ∧ e.move = old.move))) :=
  ⟨⟨by decide, by decide, by decide⟩,
   c3_store_then_retrieve ttWithA 6 50 ValueType.vtUpper 7 MOVE_NONE
     (by decide) (by decide) (by decide)⟩

/-! ## Case analysis of `store` and cluster invariants -/

/-- Every store is a no-op (StaticEval abort) or a single point write of
an entry keyed `k` into slot `i` of `k`'s cluster, where the slots
before `i` are occupied by foreign signatures and slot `i` was empty,
matching, or (eviction) the whole cluster was occupied and foreign. -/
lemma store_cases (tt : TranspositionTable) (k : Nat) (v : Int) (t : ValueType)
    (d : Int) (m : Nat) :
    store tt k v t d m = tt ∨
    ∃ i, i < 4 ∧ ∃ mv : Nat,
      (∀ j, j < i → (slotE tt k j).key ≠ 0 ∧ (slotE tt k j).key ≠ k) ∧
      ((slotE tt k i).key = 0 ∨ (slotE tt k i).key = k ∨
        (∀ j, j < 4 → (slotE tt k j).key ≠ 0 ∧ (slotE tt k j).key ≠ k)) ∧
      (store tt k v t d m).size = tt.size ∧
      (store tt k v t d m).entries =
        writeAt tt.entries (tt.first_entry k + i) ⟨k, v, t, d, mv, tt.generation⟩ := by
  by_cases hem : ∃ j, j < 4 ∧ ((slotE tt k j).key = 0 ∨ (slotE tt k j).key = k)
  · obtain ⟨i1, hi1, hPi⟩ := hem
    have hP : ∃ j, (slotE tt k j).key = 0 ∨ (slotE tt k j).key = k := ⟨i1, hPi⟩
    have hi0P := Nat.find_spec hP
    have hi0le : Nat.find hP ≤ i1 := Nat.find_min' hP hPi
    have hi04 : Nat.find hP < 4 := by omega
    have hocc : ∀ j, j < Nat.find hP →
        (slotE tt k j).key ≠ 0 ∧ (slotE tt k j).key ≠ k := by
      intro j hj
      have := Nat.find_min hP hj
      push_neg at this
      exact this
    have hscan := storeScan_hit tt k t m (Nat.find hP) hi04 hocc hi0P
    by_cases hcond : (slotE tt k (Nat.find hP)).key ≠ 0 ∧ t = ValueType.vtEval
    · rw [if_pos hcond] at hscan
      exact Or.inl (store_of_abort v d hscan)
    · rw [if_neg hcond] at hscan
      have hstore := store_of_hit v d hscan
      refine Or.inr ⟨Nat.find hP, hi04,
        (if m = MOVE_NONE then (slotE tt k (Nat.find hP)).move else m),
        hocc, ?_, by rw [hstore], by rw [hstore]⟩
      rcases hi0P with h0 | hk1
      · exact Or.inl h0
      · exact Or.inr (Or.inl hk1)
  · push_neg at hem
    obtain ⟨r2, hr2, hscan, hmin⟩ := storeScan_evict tt k t m hem
    have hstore := store_of_evict v d hscan
    exact Or.inr ⟨r2, hr2, m, fun j hj => hem j (by omega), Or.inr (Or.inr hem),
      by rw [hstore], by rw [hstore]⟩

/-- Reading cluster `k` of a table whose entries are the old entries
with one point write into cluster `k2`: same-cluster writes land on the
matching offset, cross-cluster writes are invisible (clusters start at
multiples of 4 and are disjoint). -/
lemma slotE_of_entries {tt tt2 : TranspositionTable} (k2 k : Nat) (i : Nat)
    (e : TTEntry) (hsz : tt2.size = tt.size)
    (hent : tt2.entries = writeAt tt.entries (tt.first_entry k2 + i) e)
    (hi : i < 4) :
    ∀ j, j < 4 → slotE tt2 k j =
      if tt.first_entry k = tt.first_entry k2 ∧ j = i then e else slotE tt k j := by
  intro j hj
  have hbase : tt2.first_entry k = tt.first_entry k := by
    unfold TranspositionTable.first_entry
    rw [hsz]
  show tt2.entries (tt2.first_entry k + j) = _
  rw [hent, hbase]
  by_cases hb : tt.first_entry k = tt.first_entry k2
  · have hw : writeAt tt.entries (tt.first_entry k2 + i) e (tt.first_entry k + j) =
        if j = i then e else tt.entries (tt.first_entry k + j) := by
      rw [hb]
      exact writeAt_add tt.entries (tt.first_entry k2) i j e
    rw [hw]
    by_cases hji : j = i
    · rw [if_pos hji, if_pos ⟨hb, hji⟩]
    · rw [if_neg hji, if_neg (fun hc => hji hc.2)]
      rfl
  · rw [if_neg (fun hc => hb hc.1)]
    have hne : tt.first_entry k + j ≠ tt.first_entry k2 + i := by
      unfold TranspositionTable.first_entry at hb ⊢
      omega
    unfold writeAt
    rw [if_neg hne]
    rfl

/-- A store of a non-zero signature preserves the no-holes shape of
every cluster. -/
lemma store_preserves_noholes (tt : TranspositionTable) (k2 : Nat) (v : Int)
    (t : ValueType) (d : Int) (m : Nat) (hk2 : k2 ≠ 0)
    (h : ∀ k, clusterNoHoles tt k) :
    ∀ k, clusterNoHoles (store tt k2 v t d m) k := by
  rcases store_cases tt k2 v t d m with heq | ⟨i, hi, mv, hocc, hshape, hsz, hent⟩
  · rw [heq]; exact h
  · intro k b hb a ha h0
    have hs := slotE_of_entries k2 k i _ hsz hent hi
    rw [hs a (by omega)] at h0
    rw [hs b hb]
    by_cases hcb : tt.first_entry k = tt.first_entry k2
    · have hai : a ≠ i := by
        intro hai
        rw [if_pos ⟨hcb, hai⟩] at h0
        exact hk2 h0
      rw [if_neg (fun hc => hai hc.2)] at h0
      have hagt : i < a := by
        rcases Nat.lt_or_ge a i with hlt | hge
        · have := hocc a hlt
          unfold slotE at this h0
          rw [hcb] at h0
          exact absurd h0 this.1
        · omega
      rw [if_neg (by omega : ¬ (tt.first_entry k = tt.first_entry k2 ∧ b = i))]
      exact h k b hb a ha h0
    · rw [if_neg (fun hc => hcb hc.1)] at h0
      rw [if_neg (fun hc => hcb hc.1)]
      exact h k b hb a ha h0

/-- Two signatures sharing a cluster see the same slots. -/
lemma slotE_congr_cluster {tt : TranspositionTable} {k k2 : Nat}
    (hcb : tt.first_entry k = tt.first_entry k2) (x : Nat) :
    slotE tt k x = slotE tt k2 x := by
  unfold slotE
  rw [hcb]

/-- A store of a non-zero signature never creates a duplicate signature
in a cluster, given the no-holes and uniqueness invariants. -/
lemma store_preserves_unique (tt : TranspositionTable) (k2 : Nat) (v : Int)
    (t : ValueType) (d : Int) (m : Nat) (hk2 : k2 ≠ 0)
    (hnh : ∀ k, clusterNoHoles tt k) (hu : ∀ k, k ≠ 0 → clusterUnique tt k) :
    ∀ k, k ≠ 0 → clusterUnique (store tt k2 v t d m) k := by
  rcases store_cases tt k2 v t d m with heq | ⟨i, hi, mv, hocc, hshape, hsz, hent⟩
  · rw [heq]; exact hu
  · intro k hk a ha b hb hab hka hkb
    have hs := slotE_of_entries k2 k i _ hsz hent hi
    rw [hs a ha] at hka
    rw [hs b hb] at hkb
    by_cases hcb : tt.first_entry k = tt.first_entry k2
    · by_cases hai : a = i
      · rw [if_pos ⟨hcb, hai⟩] at hka
        have hk2k : k2 = k := hka
        have hbi : b ≠ i := fun hbi => hab (hai.trans hbi.symm)
        rw [if_neg (fun hc => hbi hc.2)] at hkb
        rw [slotE_congr_cluster hcb b] at hkb
        rw [← hk2k] at hkb
        rcases hshape with h0 | hmain
        · rcases Nat.lt_or_ge b i with hblt | hbge
          · exact (hocc b hblt).2 hkb
          · have hbgt : i < b := by omega
            have hzero := hnh k2 b hb i hbgt h0
            rw [hzero] at hkb
            exact hk2 hkb.symm
        rcases hmain with hki | hfull
        · exact hu k2 hk2 i hi b hb (fun hc => hbi hc.symm) hki hkb
        · exact (hfull b hb).2 hkb
      · rw [if_neg (fun hc => hai hc.2)] at hka
        by_cases hbi : b = i
        · rw [if_pos ⟨hcb, hbi⟩] at hkb
          have hk2k : k2 = k := hkb
          rw [slotE_congr_cluster hcb a] at hka
          rw [← hk2k] at hka
          rcases hshape with h0 | hmain
          · rcases Nat.lt_or_ge a i with halt | hage
            · exact (hocc a halt).2 hka
            · have hagt : i < a := by omega
              have hzero := hnh k2 a ha i hagt h0
              rw [hzero] at hka
              exact hk2 hka.symm
          rcases hmain with hki | hfull
          · exact hu k2 hk2 i hi a ha (fun hc => hai hc.symm) hki hka
          · exact (hfull a ha).2 hka
        · rw [if_neg (fun hc => hbi hc.2)] at hkb
          exact hu k hk a ha b hb hab hka hkb
    · rw [if_neg (fun hc => hcb hc.1)] at hka
      rw [if_neg (fun hc => hcb hc.1)] at hkb
      exact hu k hk a ha b hb hab hka hkb

/-- A store of a non-zero signature never re-empties an occupied slot. -/
lemma store_preserves_occupied (tt : TranspositionTable) (k2 : Nat) (v : Int)
    (t : ValueType) (d : Int) (m : Nat) (hk2 : k2 ≠ 0) :
    ∀ idx, (tt.entries idx).key ≠ 0 → ((store tt k2 v t d m).entries idx).key ≠ 0 := by
  rcases store_cases tt k2 v t d m with heq | ⟨i, hi, mv, hocc, hshape, hsz, hent⟩
  · rw [heq]; exact fun idx h => h
  · intro idx hocc0
    rw [hent]
    unfold writeAt
    by_cases hx : idx = tt.first_entry k2 + i
    · rw [if_pos hx]; exact hk2
    · rw [if_neg hx]; exact hocc0

/-- `insert_pv` (all signatures non-zero) preserves the no-holes shape. -/
lemma insert_pv_preserves_noholes (pv : List (Nat × Nat)) :
    ∀ tt : TranspositionTable, (∀ p ∈ pv, Prod.fst p ≠ 0) →
    (∀ k, clusterNoHoles tt k) →
    ∀ k, clusterNoHoles (insert_pv tt pv) k := by
  induction pv with
  | nil => exact fun tt _ hnh => hnh
  | cons p rest ih =>
    intro tt hpv hnh
    have hp : p.1 ≠ 0 := hpv p (List.mem_cons_self p rest)
    exact ih (store tt p.1 VALUE_NONE ValueType.vtNone (-127 * OnePly) p.2)
      (fun q hq => hpv q (List.mem_cons_of_mem p hq))
      (store_preserves_noholes tt p.1 VALUE_NONE ValueType.vtNone (-127 * OnePly) p.2 hp hnh)

/-- `insert_pv` (all signatures non-zero) preserves both cluster invariants. -/
lemma insert_pv_preserves_inv (pv : List (Nat × Nat)) :
    ∀ tt : TranspositionTable, (∀ p ∈ pv, Prod.fst p ≠ 0) →
    (∀ k, clusterNoHoles tt k) → (∀ k, k ≠ 0 → clusterUnique tt k) →
    (∀ k, clusterNoHoles (insert_pv tt pv) k) ∧
    (∀ k, k ≠ 0 → clusterUnique (insert_pv tt pv) k) := by
  induction pv with
  | nil => exact fun tt _ hnh hu => ⟨hnh, hu⟩
  | cons p rest ih =>
    intro tt hpv hnh hu
    have hp : p.1 ≠ 0 := hpv p (List.mem_cons_self p rest)
    exact ih (store tt p.1 VALUE_NONE ValueType.vtNone (-127 * OnePly) p.2)
      (fun q hq => hpv q (List.mem_cons_of_mem p hq))
      (store_preserves_noholes tt p.1 VALUE_NONE ValueType.vtNone (-127 * OnePly) p.2 hp hnh)
      (store_preserves_unique tt p.1 VALUE_NONE ValueType.vtNone (-127 * OnePly) p.2 hp hnh hu)

/-- Every reachable table satisfies the no-holes and uniqueness cluster
invariants. -/
lemma reachable_inv {tt : TranspositionTable} (h : Reachable tt) :
    (∀ k, clusterNoHoles tt k) ∧ (∀ k, k ≠ 0 → clusterUnique tt k) := by
  induction h with
  | cleared tt0 =>
    constructor
    · intro k b hb a ha h0
      rfl
    · intro k hk a ha b hb hab hka
      have h0 : (0 : Nat) = k := hka
      exact fun hkb => hk h0.symm
  | stepStore tt0 k0 v t d m hre hk0 ih =>
    exact ⟨store_preserves_noholes tt0 k0 v t d m hk0 ih.1,
           store_preserves_unique tt0 k0 v t d m hk0 ih.1 ih.2⟩
  | stepNewSearch tt0 hre ih => exact ih
  | stepInsertPv tt0 pv hre hpv ih =>
    exact insert_pv_preserves_inv pv tt0 hpv ih.1 ih.2

/-- C6: after any `store` of a non-zero signature on a reachable table,
at most one slot of that signature's cluster carries the signature —
`store` never creates a duplicate. -/
theorem c6_store_at_most_one_slot (tt : TranspositionTable) (k : Nat) (v : Int)
    (t : ValueType) (d : Int) (m : Nat) (hre : Reachable tt) (hk : k ≠ 0) :
    clusterUnique (store tt k v t d m) k := by
  obtain ⟨hnh, hu⟩ := reachable_inv hre
  exact store_preserves_unique tt k v t d m hk hnh hu k hk

theorem c6_store_at_most_one_slot_witness :
    clusterUnique (store (clear ttBase) 5 1 ValueType.vtExact 3 2) 5 :=
  c6_store_at_most_one_slot (clear ttBase) 5 1 ValueType.vtExact 3 2
    (Reachable.cleared ttBase) (by decide)

/-- C10: `clear` establishes the contiguous-prefix (no-holes) cluster
shape; every `store` of a non-zero signature preserves it and never
re-empties an occupied slot; and `insert_pv` over non-zero signatures
preserves it as well — so the first-empty-or-matching scan of `store`
never faces an empty hole followed by an occupied slot. -/
theorem c10_no_holes_invariant :
    (∀ tt : TranspositionTable, ∀ k, clusterNoHoles (clear tt) k) ∧
    (∀ (tt : TranspositionTable) (k : Nat) (v : Int) (t : ValueType) (d : Int) (m : Nat),
      k ≠ 0 → (∀ k2, clusterNoHoles tt k2) →
      (∀ k2, clusterNoHoles (store tt k v t d m) k2) ∧
      (∀ idx, (tt.entries idx).key ≠ 0 → ((store tt k v t d m).entries idx).key ≠ 0)) ∧
    (∀ (tt : TranspositionTable) (pv : List (Nat × Nat)),
      (∀ p ∈ pv, Prod.fst p ≠ 0) → (∀ k2, clusterNoHoles tt k2) →
      ∀ k2, clusterNoHoles (insert_pv tt pv) k2) := by
  refine ⟨?_, ?_, ?_⟩
  · intro tt k b hb a ha h0
    rfl
  · intro tt k v t d m hk hnh
    exact ⟨store_preserves_noholes tt k v t d m hk hnh,
           store_preserves_occupied tt k v t d m hk⟩
  · intro tt pv hpv hnh
    exact insert_pv_preserves_noholes pv tt hpv hnh

theorem c10_no_holes_invariant_witness :
    ((5 : Nat) ≠ 0 ∧ (∀ k2, clusterNoHoles ttBase k2)) ∧
    (∀ k2, clusterNoHoles (store ttBase 5 1 ValueType.vtExact 3 2) k2) ∧
    (∀ idx, (ttBase.entries idx).key ≠ 0 →
      ((store ttBase 5 1 ValueType.vtExact 3 2).entries idx).key ≠ 0) :=
  ⟨⟨by decide, fun k2 b hb a ha h0 => rfl⟩,
   (c10_no_holes_invariant.2.1 ttBase 5 1 ValueType.vtExact 3 2 (by decide)
     (fun k2 b hb a ha h0 => rfl)).1,
   (c10_no_holes_invariant.2.1 ttBase 5 1 ValueType.vtExact 3 2 (by decide)
     (fun k2 b hb a ha h0 => rfl)).2⟩

/-! ## Generation bookkeeping and the occupancy estimate -/

/-- C7: `new_search` bumps the generation counter by exactly one
(8-bit truncation per the spec's counter width) and resets the write
counter, touching neither the entries nor the size; on the resulting
table `full()` reports 0. -/
theorem c7_new_search (tt : TranspositionTable) :
    (new_search tt).generation = (tt.generation + 1) % 256 ∧
    (new_search tt).writes = 0 ∧
    (new_search tt).entries = tt.entries ∧
    (new_search tt).size = tt.size ∧
    full (new_search tt) = 0 := by
  refine ⟨rfl, rfl, rfl, rfl, ?_⟩
  have hw : (new_search tt).writes = 0 := rfl
  unfold TranspositionTable.full
  rw [hw]
  norm_num [cTrunc]

/-- The factor `1 - 1/(size*4)` of the occupancy estimator lies in (0,1)
on a nonempty table. -/
lemma full_base_pos (sz : Nat) (hsz : 1 ≤ sz) :
    0 < 1 - 1 / ((sz : ℝ) * 4) ∧ 1 - 1 / ((sz : ℝ) * 4) < 1 := by
  have h1 : (1 : ℝ) ≤ (sz : ℝ) := by exact_mod_cast hsz
  have hNpos : (0 : ℝ) < (sz : ℝ) * 4 := by nlinarith
  constructor
  · have hlt : 1 / ((sz : ℝ) * 4) < 1 := by
      rw [div_lt_one hNpos]; nlinarith
    linarith
  · have hpos : 0 < 1 / ((sz : ℝ) * 4) := by positivity
    linarith

/-- Closed form of `full`: the logarithm/exponential pair computes the
birthday-process power, and the truncation is a floor of a nonnegative
number. -/
lemma full_eq_floor (tt : TranspositionTable) (hsz : 1 ≤ tt.size) :
    full tt = ⌊(1000 : ℝ) * (1 - (1 - 1 / ((tt.size : ℝ) * 4)) ^ tt.writes)⌋ := by
  obtain ⟨ha0, ha1⟩ := full_base_pos tt.size hsz
  have hpow1 : (1 - 1 / ((tt.size : ℝ) * 4)) ^ tt.writes ≤ 1 :=
    pow_le_one₀ ha0.le ha1.le
  have hx0 : 0 ≤ (1000 : ℝ) * (1 - (1 - 1 / ((tt.size : ℝ) * 4)) ^ tt.writes) := by
    nlinarith
  unfold TranspositionTable.full
  rw [Real.exp_nat_mul, Real.exp_log ha0]
  unfold cTrunc
  rw [if_pos hx0]

/-- C8: on a table with at least one cluster, `full()` equals the
integer part of `1000 * (1 - (1 - 1/N)^writes)` with `N = 4*size`
(floor of a nonnegative value, i.e. the C truncation), lies in
[0, 1000], is 0 when `writes = 0`, and is monotonically non-decreasing
in `writes` at fixed size. -/
theorem c8_full_occupancy (tt : TranspositionTable) (hsz : 1 ≤ tt.size) :
    full tt = ⌊(1000 : ℝ) * (1 - (1 - 1 / ((tt.size : ℝ) * 4)) ^ tt.writes)⌋ ∧
    0 ≤ full tt ∧ full tt ≤ 1000 ∧
    (tt.writes = 0 → full tt = 0) ∧
    (∀ tt2 : TranspositionTable, tt2.size = tt.size → tt.writes ≤ tt2.writes →
      full tt ≤ full tt2) := by
  obtain ⟨ha0, ha1⟩ := full_base_pos tt.size hsz
  have heq := full_eq_floor tt hsz
  have hpow_le1 : ∀ w : Nat, (1 - 1 / ((tt.size : ℝ) * 4)) ^ w ≤ 1 :=
    fun w => pow_le_one₀ ha0.le ha1.le
  have hpow_pos : ∀ w : Nat, 0 < (1 - 1 / ((tt.size : ℝ) * 4)) ^ w :=
    fun w => pow_pos ha0 w
  refine ⟨heq, ?_, ?_, ?_, ?_⟩
  · rw [heq]
    apply Int.floor_nonneg.mpr
    nlinarith [hpow_le1 tt.writes]
  · rw [heq]
    have h1000 : (1000 : ℝ) * (1 - (1 - 1 / ((tt.size : ℝ) * 4)) ^ tt.writes) ≤ 1000 := by
      nlinarith [hpow_pos tt.writes]
    have hfl := Int.floor_le_floor h1000
    have h2 : ⌊(1000 : ℝ)⌋ = 1000 := by norm_num
    omega
  · intro hw
    rw [heq, hw]
    norm_num
  · intro tt2 hsz2 hw
    have hsz2' : 1 ≤ tt2.size := by rw [hsz2]; exact hsz
    have heq2 := full_eq_floor tt2 hsz2'
    rw [heq, heq2, hsz2]
    apply Int.floor_le_floor
    have hpw := pow_le_pow_of_le_one ha0.le ha1.le hw
    nlinarith [hpw]

theorem c8_full_occupancy_witness :
    1 ≤ ttBase.size ∧
    full ttBase ≤ full ⟨4, fun _ => TTEntry.empty, 0, 5⟩ :=
  ⟨by decide, (c8_full_occupancy ttBase (by decide)).2.2.2.2
    ⟨4, fun _ => TTEntry.empty, 0, 5⟩ rfl (by decide)⟩

/-- C9: `insert_pv` walks the PV pair list in order, issuing for each
move exactly one placeholder store with value VALUE_NONE, bound type
VALUE_TYPE_NONE and the fixed -127-ply depth sentinel; as a consequence
it overwrites the genuine entry (value 100, Exact, depth 3, move 11)
held for a visited signature with that near-worthless placeholder. -/
theorem c9_insert_pv_placeholder :
    (∀ (tt : TranspositionTable) (k mv : Nat) (rest : List (Nat × Nat)),
      insert_pv tt ((k, mv) :: rest) =
        insert_pv (store tt k VALUE_NONE ValueType.vtNone (-127 * OnePly) mv) rest) ∧
    (∀ tt : TranspositionTable, insert_pv tt [] = tt) ∧
    retrieve ttWithA 6 = Option.some ⟨6, 100, ValueType.vtExact, 3, 11, 0⟩ ∧
    retrieve (insert_pv ttWithA [(6, 9)]) 6 =
      Option.some ⟨6, VALUE_NONE, ValueType.vtNone, -127 * OnePly, 9, 0⟩ :=
  ⟨fun tt k mv rest => rfl, fun tt => rfl, by decide, by decide⟩

/-! ## Sizing analysis (set_size) -/

/-- The doubling loop multiplies its start by a power of two. -/
lemma growSizeGo_pow (budget : Nat) :
    ∀ fuel n, ∃ j, growSizeGo budget fuel n = n * 2 ^ j := by
  intro fuel
  induction fuel with
  | zero => exact fun n => ⟨0, by simp [growSizeGo]⟩
  | succ fuel ih =>
    intro n
    simp only [growSizeGo]
    by_cases hc : (2 * n) * 4 * sizeofTTEntry ≤ budget
    · rw [if_pos hc]
      obtain ⟨j, hj⟩ := ih (2 * n)
      exact ⟨j + 1, by rw [hj]; ring⟩
    · rw [if_neg hc]
      exact ⟨0, by ring⟩

/-- The loop never leaves the budget once inside it. -/
lemma growSizeGo_fits (budget : Nat) :
    ∀ fuel n, n * 4 * sizeofTTEntry ≤ budget →
      (growSizeGo budget fuel n) * 4 * sizeofTTEntry ≤ budget := by
  intro fuel
  induction fuel with
  | zero => intro n h; simpa [growSizeGo] using h
  | succ fuel ih =>
    intro n h
    simp only [growSizeGo]
    by_cases hc : (2 * n) * 4 * sizeofTTEntry ≤ budget
    · rw [if_pos hc]; exact ih (2 * n) hc
    · rw [if_neg hc]; exact h

/-- With enough fuel the loop exits only because doubling again would
overflow the budget. -/
lemma growSizeGo_maximal (budget : Nat) :
    ∀ fuel n, 0 < n → budget < (2 * n) * 4 * sizeofTTEntry * 2 ^ fuel →
      ¬ ((2 * growSizeGo budget fuel n) * 4 * sizeofTTEntry ≤ budget) := by
  intro fuel
  induction fuel with
  | zero =>
    intro n hn h
    simp only [growSizeGo]
    simp only [pow_zero, Nat.mul_one] at h
    omega
  | succ fuel ih =>
    intro n hn h
    simp only [growSizeGo]
    by_cases hc : (2 * n) * 4 * sizeofTTEntry ≤ budget
    · rw [if_pos hc]
      apply ih (2 * n) (by omega)
      have hEq : (2 * (2 * n)) * 4 * sizeofTTEntry * 2 ^ fuel =
          (2 * n) * 4 * sizeofTTEntry * 2 ^ (fuel + 1) := by
        rw [pow_succ]; ring
      rw [hEq]
      exact h
    · rw [if_neg hc]
      exact hc

/-- The table's size after `set_size` is always the loop's result. -/
lemma set_size_size (tt : TranspositionTable) (mbSize : Nat) :
    (set_size tt mbSize).size = growSize ((mbSize <<< 20) % 2 ^ 32) 1024 := by
  unfold TranspositionTable.set_size
  by_cases h : growSize ((mbSize <<< 20) % 2 ^ 32) 1024 ≠ tt.size
  · rw [if_pos h]
  · rw [if_neg h]
    omega

/-- C5 (amended): after `set_size(mb)` with mb in the supported 4..4096
range: the cluster count is always 1024 times a power of two; for
mb ≤ 4095 it is the largest power of two ≥ 1024 whose 4-entry clusters
fit in mb megabytes, while at mb = 4096 the 32-bit byte budget
`mb << 20` wraps to 0 and the count stays at the 1024-cluster floor.
When the computed count differs from the current size the table is
freshly cleared, so `retrieve` of any non-zero signature misses — but
when the computed count equals the current size the call is a no-op
that preserves the existing contents (so the unconditional "retrieve
misses afterwards" of the original claim fails; see the
counterexample). -/
theorem c5_set_size_capacity (tt : TranspositionTable) (mb : Nat)
    (h4 : 4 ≤ mb) (h4096 : mb ≤ 4096) :
    (∃ j, (set_size tt mb).size = 1024 * 2 ^ j) ∧
    (mb ≤ 4095 →
      (set_size tt mb).size * 4 * sizeofTTEntry ≤ mb * 2 ^ 20 ∧
      (∀ c, (∃ j, c = 2 ^ j) → 1024 ≤ c → c * 4 * sizeofTTEntry ≤ mb * 2 ^ 20 →
        c ≤ (set_size tt mb).size)) ∧
    (mb = 4096 → (set_size tt mb).size = 1024) ∧
    ((set_size tt mb).size ≠ tt.size →
      ∀ k, k ≠ 0 → retrieve (set_size tt mb) k = Option.none) ∧
    (growSize ((mb <<< 20) % 2 ^ 32) 1024 = tt.size → set_size tt mb = tt) := by
  have hsz := set_size_size tt mb
  refine ⟨?_, ?_, ?_, ?_, ?_⟩
  · obtain ⟨jr, hjr⟩ := growSizeGo_pow ((mb <<< 20) % 2 ^ 32) 64 1024
    exact ⟨jr, by rw [hsz]; exact hjr⟩
  · intro hmb
    have hbud : (mb <<< 20) % 2 ^ 32 = mb * 2 ^ 20 := by
      rw [Nat.shiftLeft_eq]
      apply Nat.mod_eq_of_lt
      calc mb * 2 ^ 20 ≤ 4095 * 2 ^ 20 := Nat.mul_le_mul_right _ hmb
      _ < 2 ^ 32 := by norm_num
    have hlo : 1024 * 4 * sizeofTTEntry ≤ mb * 2 ^ 20 := by
      unfold TranspositionTable.sizeofTTEntry
      calc 1024 * 4 * 16 = 65536 := by norm_num
      _ ≤ 4 * 2 ^ 20 := by norm_num
      _ ≤ mb * 2 ^ 20 := Nat.mul_le_mul_right _ h4
    have hhi : mb * 2 ^ 20 < (2 * 1024) * 4 * sizeofTTEntry * 2 ^ 64 := by
      unfold TranspositionTable.sizeofTTEntry
      calc mb * 2 ^ 20 ≤ 4096 * 2 ^ 20 := Nat.mul_le_mul_right _ h4096
      _ < (2 * 1024) * 4 * 16 * 2 ^ 64 := by norm_num
    obtain ⟨jr, hjr⟩ := growSizeGo_pow (mb * 2 ^ 20) 64 1024
    have hfits := growSizeGo_fits (mb * 2 ^ 20) 64 1024 hlo
    have hmax := growSizeGo_maximal (mb * 2 ^ 20) 64 1024 (by omega) hhi
    constructor
    · rw [hsz]
      show growSize ((mb <<< 20) % 2 ^ 32) 1024 * 4 * sizeofTTEntry ≤ mb * 2 ^ 20
      rw [hbud]
      exact hfits
    · intro c hcpow hc1024 hcfits
      obtain ⟨j, hj⟩ := hcpow
      rw [hsz]
      show c ≤ growSize ((mb <<< 20) % 2 ^ 32) 1024
      rw [hbud]
      show c ≤ growSizeGo (mb * 2 ^ 20) 64 1024
      by_contra hgt
      push_neg at hgt
      have hrpow : growSizeGo (mb * 2 ^ 20) 64 1024 = 2 ^ (10 + jr) := by
        rw [hjr, pow_add]
        norm_num
      have hjlt : 10 + jr < j := by
        apply (Nat.pow_lt_pow_iff_right (by omega : 1 < 2)).mp
        rw [← hrpow, ← hj]
        exact hgt
      have h2r : 2 * growSizeGo (mb * 2 ^ 20) 64 1024 ≤ c := by
        rw [hrpow, hj]
        calc 2 * 2 ^ (10 + jr) = 2 ^ (10 + jr + 1) := by rw [pow_succ]; ring
        _ ≤ 2 ^ j := Nat.pow_le_pow_right (by omega) (by omega)
      exact hmax (le_trans (by nlinarith) hcfits)
  · intro hmb
    subst hmb
    rw [hsz]
    decide
  · intro hne k hk
    have hdiff : growSize ((mb <<< 20) % 2 ^ 32) 1024 ≠ tt.size := by
      intro heq
      apply hne
      rw [hsz, heq]
    unfold TranspositionTable.set_size
    rw [if_pos hdiff]
    apply retrieve_none
    intro j hj hkey
    have h0 : (0 : Nat) = k := hkey
    exact hk h0.symm
  · intro heq
    unfold TranspositionTable.set_size
    rw [if_neg (by omega)]

theorem c5_set_size_capacity_witness :
    ((4 : Nat) ≤ 4 ∧ (4 : Nat) ≤ 4096) ∧
    ((∃ j, (set_size ttBase 4).size = 1024 * 2 ^ j) ∧
    ((4 : Nat) ≤ 4095 →
      (set_size ttBase 4).size * 4 * sizeofTTEntry ≤ 4 * 2 ^ 20 ∧
      (∀ c, (∃ j, c = 2 ^ j) → 1024 ≤ c → c * 4 * sizeofTTEntry ≤ 4 * 2 ^ 20 →
        c ≤ (set_size ttBase 4).size)) ∧
    ((4 : Nat) = 4096 → (set_size ttBase 4).size = 1024) ∧
    ((set_size ttBase 4).size ≠ ttBase.size →
      ∀ k, k ≠ 0 → retrieve (set_size ttBase 4) k = Option.none) ∧
    (growSize ((4 <<< 20) % 2 ^ 32) 1024 = ttBase.size → set_size ttBase 4 = ttBase)) ∧
    (set_size ttBase 4096).size = 1024 :=
  ⟨⟨by decide, by decide⟩, c5_set_size_capacity ttBase 4 (by decide) (by decide),
   by decide⟩

/-- C5 as literally claimed is false: when the computed cluster count
equals the table's current size, `set_size` is a no-op that preserves
content, so a retrieve right after it still finds an earlier entry —
here the table already has the 65536 clusters that `set_size(4)`
computes and holds an entry for signature 1. -/
theorem c5_counterexample :
    (set_size (store (set_size ⟨0, fun _ => TTEntry.empty, 0, 0⟩ 4)
        1 5 ValueType.vtExact 3 2) 4).size =
      (store (set_size ⟨0, fun _ => TTEntry.empty, 0, 0⟩ 4)
        1 5 ValueType.vtExact 3 2).size ∧
    retrieve (set_size (store (set_size ⟨0, fun _ => TTEntry.empty, 0, 0⟩ 4)
        1 5 ValueType.vtExact 3 2) 4) 1 =
      Option.some ⟨1, 5, ValueType.vtExact, 3, 2, 0⟩ := by
  constructor <;> decide
